import Mathlib

/-!
Shallow embedding of `core_logic/attendance_system.cpp` (Student Attendance
System): the in-memory record store (`std::map<int, std::vector<std::string>>`),
its operations `markAttendance`, `viewAttendance`, `getOverallStats`, and the
serializer `saveData` / `loadData`, together with proofs about the frozen
claims of the specification.

Modelling conventions:
* `std::map<int, std::vector<std::string>>` becomes an association list
  `List (Int × List String)` kept strictly sorted by key (the `std::map`
  ordering invariant); `operator[]` / ordered insertion becomes `setDates`.
* `std::string` becomes `String`; the byte-wise lexicographic order used by
  `std::sort` / `std::set` becomes the lexicographic order on `String.data`
  (`dle` / `dlt` below), which is the same total order.
* C++ functions that write to streams become functions returning the produced
  `String`; the file system is out of scope, so `loadData` takes the file
  text as an argument and `saveData` returns the text it writes.
* `std::stoi` becomes `stoi?` returning `Option Int` (`none` = the
  `std::invalid_argument` exception caught at line 164 of the source).
-/

namespace AttSys

/-- The record store: roll number ↦ list of date strings, mirroring the member
`std::map<int, std::vector<std::string>> attendance`.  The `std::map` key
ordering is the `keysOrdered` invariant proved below. -/
abbrev Store := List (Int × List String)

/-- The order used by `std::sort` / `std::set<std::string>` on dates:
lexicographic comparison of the character sequences (`a ≤ b`). -/
def dle (a b : String) : Prop := a.data ≤ b.data

/-- Strict version of `dle` (`std::string::operator<`). -/
def dlt (a b : String) : Prop := a.data < b.data

instance : DecidableRel dle := fun a b => inferInstanceAs (Decidable (a.data ≤ b.data))

instance : DecidableRel dlt := fun a b => inferInstanceAs (Decidable (a.data < b.data))

instance : IsTotal String dle := ⟨fun a b => le_total a.data b.data⟩

instance : IsTrans String dle := ⟨fun _ _ _ h1 h2 => le_trans h1 h2⟩

instance : IsAntisymm String dle := ⟨fun a b h1 h2 => by
  cases a; cases b; exact congrArg String.mk (le_antisymm h1 h2)⟩

/-- `attendance.find(r)` / `attendance.count(r)`: look a roll number up in the
store. -/
def lookup : Store → Int → Option (List String)
  | [], _ => none
  | (k, v) :: rest, r => if r = k then some v else lookup rest r

/-- The `DateSet` of a roll number; `[]` when the roll number is absent
(`operator[]` default-constructs an empty vector). -/
def getDates (s : Store) (r : Int) : List String := (lookup s r).getD []

/-- `attendance[r] = ds`: ordered insertion/update of a `std::map` entry,
keeping keys strictly ascending. -/
def setDates : Store → Int → List String → Store
  | [], r, ds => [(r, ds)]
  | (k, v) :: rest, r, ds =>
    if r < k then (r, ds) :: (k, v) :: rest
    else if r = k then (r, ds) :: rest
    else (k, v) :: setDates rest r ds

/-- The sort `std::sort(attendance[rollNo].begin(), attendance[rollNo].end())`:
sorting date strings lexicographically ascending. -/
def sortDates (ds : List String) : List String := List.insertionSort dle ds

/-! ## Decimal rendering of integers

`std::to_string(int)` and `operator<<(ostream, int)` both produce the plain
decimal representation; `natDigitsRev` is fuel-based so that the kernel can
evaluate it on concrete inputs. -/

/-- The decimal digit character of `n % 10`. -/
def digitChr (n : Nat) : Char :=
  match n with
  | 0 => '0' | 1 => '1' | 2 => '2' | 3 => '3' | 4 => '4'
  | 5 => '5' | 6 => '6' | 7 => '7' | 8 => '8' | _ => '9'

/-- Decimal digits of `n`, least significant first (`fuel ≥ n` suffices). -/
def natDigitsRev : Nat → Nat → List Char
  | 0, _ => []
  | fuel + 1, n => if n < 10 then [digitChr n] else digitChr (n % 10) :: natDigitsRev fuel (n / 10)

/-- Decimal representation of a natural number, as characters. -/
def natRepr (n : Nat) : List Char := (natDigitsRev (n + 1) n).reverse

/-- Decimal representation of an `int`, as characters. -/
def intRepr (i : Int) : List Char := if i < 0 then '-' :: natRepr i.natAbs else natRepr i.natAbs

/-- `std::to_string` on an `int`. -/
def intReprS (i : Int) : String := String.mk (intRepr i)

/-- Decimal rendering of a natural counter. -/
def natReprS (n : Nat) : String := String.mk (natRepr n)

/-! ## `escape_json_string` -/

/-- The per-character case split of the loop body of `escape_json_string`
(source lines 26–40). -/
def escChar (c : Char) : List Char :=
  if c = '"' then ['\\', '"']
  else if c = '\\' then ['\\', '\\']
  else if c = '\n' then ['\\', 'n']
  else if c = '\r' then ['\\', 'r']
  else if c = '\t' then ['\\', 't']
  else [c]

/-- `escape_json_string` (source lines 24–42): the loop appends the escape of
each character to the accumulator `escaped_s`. -/
def escape_json_string (cs : List Char) : List Char :=
  cs.foldl (fun acc c => acc ++ escChar c) []

/-- `escape_json_string` acting on a `String`. -/
def escapeS (s : String) : String := String.mk (escape_json_string s.data)

/-! ## Record store operations -/

/-- The success message built at source line 217. -/
def markSuccessMsg (r : Int) (d : String) : String :=
  "\x7b\"status\": \"success\", \"message\": \"Attendance marked for Roll No: "
    ++ intReprS r ++ " on " ++ d ++ "\"\x7d"

/-- The duplicate-error message built at source line 219. -/
def markDupMsg (r : Int) (d : String) : String :=
  "\x7b\"status\": \"error\", \"message\": \"Attendance already marked for Roll No: "
    ++ intReprS r ++ " on " ++ d ++ "\"\x7d"

/-- `markAttendance` (source lines 211–221): if `date` is not in
`attendance[rollNo]` (which `operator[]` creates empty if absent), push it and
re-sort, returning the success JSON; otherwise return the duplicate-error
JSON.  The returned pair is (produced JSON, store after the call). -/
def markAttendance (s : Store) (r : Int) (d : String) : String × Store :=
  let ds := getDates s r
  if d ∈ ds then (markDupMsg r d, setDates s r ds)
  else (markSuccessMsg r d, setDates s r (sortDates (ds ++ [d])))

/-- The `"dates"` array body of `viewAttendance` (source lines 234–239): each
date escaped and quoted, separated by `", "`. -/
def viewDatesBody : List String → String
  | [] => ""
  | [d] => "\"" ++ escapeS d ++ "\""
  | d :: d2 :: rest => "\"" ++ escapeS d ++ "\", " ++ viewDatesBody (d2 :: rest)

/-- The success message of `viewAttendance` (source lines 232–241). -/
def viewSuccessMsg (r : Int) (ds : List String) : String :=
  "\x7b\"status\": \"success\", \"roll_no\": " ++ intReprS r
    ++ ", \"dates\": [" ++ viewDatesBody ds ++ "]\x7d"

/-- The not-found message of `viewAttendance` (source line 243). -/
def viewNotFoundMsg (r : Int) : String :=
  "\x7b\"status\": \"error\", \"message\": \"Roll No: " ++ intReprS r ++ " not found.\"\x7d"

/-- `viewAttendance` (source lines 228–245): a `const` method producing a JSON
string; the store is not modified. -/
def viewAttendance (s : Store) (r : Int) : String :=
  match lookup s r with
  | some ds => viewSuccessMsg r ds
  | none => viewNotFoundMsg r

/-- `std::set<std::string>::insert`: ordered insertion without duplicates. -/
def setInsert (d : String) : List String → List String
  | [] => [d]
  | x :: xs => if dlt d x then d :: x :: xs else if d = x then x :: xs else x :: setInsert d xs

/-- The statistics loop of `getOverallStats` (source lines 257–262):
accumulates the total entry count and the `std::set` of unique dates. -/
def statsLoop (s : Store) : Nat × List String :=
  s.foldl (fun acc p => (acc.1 + p.2.length, p.2.foldl (fun u d => setInsert d u) acc.2)) (0, [])

/-- The three statistics of `getOverallStats`:
`(total_students, total_unique_dates, total_attendance_entries)`. -/
def getOverallStatsNums (s : Store) : Nat × Nat × Nat :=
  (s.length, (statsLoop s).2.length, (statsLoop s).1)

/-- `getOverallStats` (source lines 251–271): the JSON string built from the
three statistics. -/
def getOverallStats (s : Store) : String :=
  "\x7b\"status\": \"success\", \"stats\": \x7b\"total_students\": "
    ++ natReprS (getOverallStatsNums s).1
    ++ ", \"total_unique_dates\": " ++ natReprS (getOverallStatsNums s).2.1
    ++ ", \"total_attendance_entries\": " ++ natReprS (getOverallStatsNums s).2.2
    ++ "\x7d\x7d"

/-! ## `saveData` (encode) -/

/-- The inner date loop of `saveData` (source lines 189–196): a
`first_date` flag controls the comma separators. -/
def datesOut (ds : List String) : String :=
  (ds.foldl
    (fun (acc : String × Bool) d =>
      (acc.1 ++ (if acc.2 then "" else ",") ++ "\"" ++ escapeS d ++ "\"", false))
    ("", true)).1

/-- The student loop of `saveData` (source lines 183–199): a `first_student`
flag controls the comma separators; each entry is `"<id>":[<dates>]`. -/
def saveBody (s : Store) : String :=
  (s.foldl
    (fun (acc : String × Bool) p =>
      (acc.1 ++ (if acc.2 then "" else ",") ++ "\"" ++ intReprS p.1 ++ "\":["
        ++ datesOut p.2 ++ "]", false))
    ("", true)).1

/-- `saveData` (source lines 175–203): the full text written to the data file
(opening the file is out of scope; the text is always produced). -/
def saveData (s : Store) : String := "\x7b" ++ saveBody s ++ "\x7d"

/-! ## `loadData` (decode)

The decoder works over the character list of the file text.  The top-level
comma split mirrors the scanning loop of source lines 86–99 (depth counters
`brace_count` / `bracket_count`); comma-terminated segments are processed by
`procMid` (source lines 101–132) and the final segment by `procLast` (source
lines 134–161, which notably does NOT `continue` when the value part is not
bracket-surrounded).  A `std::stoi` failure anywhere aborts decoding: the
`catch` at source lines 164–168 clears the store. -/

/-- Update of `brace_count` for one character (source lines 92–93). -/
def updB (c : Char) (n : Int) : Int := if c = '\x7b' then n + 1 else if c = '\x7d' then n - 1 else n

/-- Update of `bracket_count` for one character (source lines 94–95). -/
def updK (c : Char) (n : Int) : Int := if c = '[' then n + 1 else if c = ']' then n - 1 else n

/-- The scanning loop of source lines 91–133 as a splitter: cut at every comma
seen while both depth counters are zero.  The accumulator holds the current
segment reversed.  The trailing piece is the "last segment" of source
line 135. -/
def splitTop : List Char → Int → Int → List Char → List (List Char)
  | [], _, _, acc => [acc.reverse]
  | c :: rest, bc, kc, acc =>
    if c = ',' ∧ bc = 0 ∧ kc = 0 then acc.reverse :: splitTop rest bc kc []
    else splitTop rest (updB c bc) (updK c kc) (c :: acc)

/-- Final value of the two depth counters after scanning a character list. -/
def scanPair : List Char → Int × Int → Int × Int
  | [], p => p
  | c :: rest, p => scanPair rest (updB c p.1, updK c p.2)

/-- No top-level comma is encountered while scanning `cs` starting from the
given counter values (so `splitTop` passes over `cs` without cutting). -/
def noSplit : List Char → Int → Int → Prop
  | [], _, _ => True
  | c :: rest, bc, kc => ¬(c = ',' ∧ bc = 0 ∧ kc = 0) ∧ noSplit rest (updB c bc) (updK c kc)

/-- The C locale whitespace set `" \t\n\r\f\v"` used by the trimming at source
lines 124–125 and by `std::stoi`. -/
def cppIsSpace (c : Char) : Bool :=
  c = ' ' ∨ c = '\t' ∨ c = '\n' ∨ c = '\r' ∨ c = '\x0c' ∨ c = '\x0b'

/-- The trim of source lines 124–125: erase leading and trailing whitespace. -/
def trimWs (cs : List Char) : List Char :=
  ((cs.dropWhile cppIsSpace).reverse.dropWhile cppIsSpace).reverse

/-- Strip one layer of surrounding double quotes when the piece has length ≥ 2
and both ends are `"` (source lines 108–110 and 126–128). -/
def stripQuotes (cs : List Char) : List Char :=
  if cs.length ≥ 2 ∧ cs.head? = some '"' ∧ cs.getLast? = some '"' then (cs.drop 1).dropLast
  else cs

/-- Strip the surrounding brackets of an array value when present (source
lines 114–118 and 146–148); `none` means the value is not bracket-surrounded. -/
def stripBrackets? (cs : List Char) : Option (List Char) :=
  if cs.length ≥ 2 ∧ cs.head? = some '[' ∧ cs.getLast? = some ']' then
    some ((cs.drop 1).dropLast)
  else none

/-- Split a segment at its first colon (`segment.find(':')`, source
lines 101/136): `none` when the segment has no colon. -/
def splitAtColon? : List Char → Option (List Char × List Char)
  | [] => none
  | c :: rest =>
    if c = ':' then some ([], rest)
    else
      match splitAtColon? rest with
      | none => none
      | some (a, b) => some (c :: a, b)

/-- Plain comma split (all pieces, including a trailing empty one). -/
def splitComma : List Char → List Char → List (List Char)
  | [], acc => [acc.reverse]
  | c :: rest, acc =>
    if c = ',' then acc.reverse :: splitComma rest [] else splitComma rest (c :: acc)

/-- The `std::getline(date_ss, date_segment, ',')` loop (source lines 122/152):
on an empty input it yields no pieces, and a trailing comma does not yield a
trailing empty piece (the final `getline` extracts nothing and fails). -/
def getlineSplit (cs : List Char) : List (List Char) :=
  if cs.isEmpty then []
  else
    let ps := splitComma cs []
    if ps.getLast? = some [] then ps.dropLast else ps

/-- `isdigit` for decimal digits. -/
def isDigitChar (c : Char) : Bool := '0' ≤ c ∧ c ≤ '9'

/-- Numeric value of a decimal digit character. -/
def charVal (c : Char) : Nat := c.toNat - 48

/-- Value of a most-significant-first digit list. -/
def digitsToNat (ds : List Char) : Nat := ds.foldl (fun n c => n * 10 + charVal c) 0

/-- `std::stoi` (source lines 111/144): skip leading whitespace, read an
optional sign, then at least one decimal digit (trailing characters are
ignored); `none` models the `std::invalid_argument` exception. -/
def stoi? (cs : List Char) : Option Int :=
  let cs1 := cs.dropWhile cppIsSpace
  let cs2 := if cs1.head? = some '-' ∨ cs1.head? = some '+' then cs1.tail else cs1
  let ds := cs2.takeWhile isDigitChar
  if ds.isEmpty then none
  else if cs1.head? = some '-' then some (-(digitsToNat ds : Int))
  else some (digitsToNat ds : Int)

/-- Append decoded dates to `attendance[rollNo]` and re-sort (source
lines 129–131 / 158–160).  The `operator[]` in the sort line creates the entry
even when no date was pushed. -/
def insertDatesSorted (s : Store) (r : Int) (ds : List String) : Store :=
  setDates s r (sortDates (getDates s r ++ ds))

/-- Decode the pieces of a bracket interior into date strings: trim, then
strip one quote layer (source lines 123–128). -/
def decodeDates (v : List Char) : List String :=
  (getlineSplit v).map (fun p => String.mk (stripQuotes (trimWs p)))

/-- Processing of one comma-terminated segment (source lines 101–132): skip if
no colon; parse the quoted-stripped key with `std::stoi` (`none` aborts); skip
if the value is not bracket-surrounded; otherwise decode the dates and append
them to the entry. -/
def procMid (s : Store) (seg : List Char) : Option Store :=
  match splitAtColon? seg with
  | none => some s
  | some (keyRaw, valRaw) =>
    match stoi? (stripQuotes keyRaw) with
    | none => none
    | some r =>
      match stripBrackets? valRaw with
      | none => some s
      | some v => some (insertDatesSorted s r (decodeDates v))

/-- Processing of the last segment (source lines 134–161).  Unlike `procMid`
there is no `continue` when the value is not bracket-surrounded: the raw value
is then split into dates as it stands. -/
def procLast (s : Store) (seg : List Char) : Option Store :=
  match splitAtColon? seg with
  | none => some s
  | some (keyRaw, valRaw) =>
    match stoi? (stripQuotes keyRaw) with
    | none => none
    | some r => some (insertDatesSorted s r (decodeDates ((stripBrackets? valRaw).getD valRaw)))

/-- Run the segment list: every segment but the last through `procMid`, the
last through `procLast`; `none` = an exception escaped to the `catch`. -/
def runSegs : Store → List (List Char) → Option Store
  | s, [] => some s
  | s, [seg] => procLast s seg
  | s, seg1 :: seg2 :: rest =>
    match procMid s seg1 with
    | none => none
    | some s2 => runSegs s2 (seg2 :: rest)

/-- Outcome of `loadData`: `ok` = `return true`; `noData` = the empty-file
early `return false` at source line 68 (nothing to load, no error report);
`parseError` = the invalid-format report at line 76 or the `catch` at
lines 164–168 (an error is written to `cerr`). -/
inductive LoadResult
  | ok
  | noData
  | parseError
deriving DecidableEq

/-- `loadData` (source lines 54–169) on the file text, starting from the empty
store of a fresh process: reject text not wrapped in braces, split the brace
interior at top-level commas, process the segments; on an exception the store
is cleared (`attendance.clear()`). -/
def loadData (text : String) : LoadResult × Store :=
  let cs := text.data
  if cs.isEmpty then (.noData, [])
  else if ¬(cs.length ≥ 2 ∧ cs.head? = some '\x7b' ∧ cs.getLast? = some '\x7d') then
    (.parseError, [])
  else
    match runSegs [] (splitTop ((cs.drop 1).dropLast) 0 0 []) with
    | some st => (.ok, st)
    | none => (.parseError, [])

/-! ## Definitions used to state the claims -/

/-- A finite command sequence of `mark` operations applied to the empty store
of a fresh process. -/
def applyMarks (ms : List (Int × String)) : Store :=
  ms.foldl (fun s m => (markAttendance s m.1 m.2).2) []

/-- The `std::map` ordering invariant: keys strictly ascending. -/
def keysOrdered (s : Store) : Prop := List.Pairwise (· < ·) (s.map Prod.fst)

/-- The DateSet invariant of the spec: each student's dates are sorted
ascending and duplicate-free. -/
def datesWF (s : Store) : Prop := ∀ p ∈ s, List.Sorted dle p.2 ∧ p.2.Nodup

/-- A valid store: the map invariant plus the DateSet invariant. -/
def StoreWF (s : Store) : Prop := keysOrdered s ∧ datesWF s

/-- Characters that the serialization format cannot carry through a round
trip: the five escaped characters, the comma (the date separator), and the
bracket/brace characters that drive the depth counters of the decoder. -/
def specialChar (c : Char) : Prop :=
  c ∈ ['"', '\\', '\n', '\r', '\t', ',', '[', ']', '\x7b', '\x7d']

/-- A store none of whose date strings contains a `specialChar`. -/
def cleanStore (s : Store) : Prop := ∀ p ∈ s, ∀ d ∈ p.2, ∀ c ∈ d.data, ¬specialChar c

instance (s : Store) : Decidable (keysOrdered s) :=
  inferInstanceAs (Decidable (List.Pairwise (· < ·) (s.map Prod.fst)))

instance (s : Store) : Decidable (datesWF s) :=
  inferInstanceAs (Decidable (∀ p ∈ s, List.Sorted dle p.2 ∧ p.2.Nodup))

instance (s : Store) : Decidable (StoreWF s) :=
  inferInstanceAs (Decidable (keysOrdered s ∧ datesWF s))

instance (c : Char) : Decidable (specialChar c) :=
  inferInstanceAs (Decidable (c ∈ ['"', '\\', '\n', '\r', '\t', ',', '[', ']', '\x7b', '\x7d']))

instance (s : Store) : Decidable (cleanStore s) :=
  inferInstanceAs (Decidable (∀ p ∈ s, ∀ d ∈ p.2, ∀ c ∈ d.data, ¬specialChar c))

/-- The three store operations of the command surface. -/
inductive Cmd
  | mark : Int → String → Cmd
  | view : Int → Cmd
  | stats : Cmd

/-- One process invocation's store operation: `mark` may mutate the store;
`viewAttendance` and `getOverallStats` are `const` methods of the source and
return the store unchanged. -/
def step (s : Store) : Cmd → String × Store
  | .mark r d => markAttendance s r d
  | .view r => (viewAttendance s r, s)
  | .stats => (getOverallStats s, s)

/-- Join character-list pieces with a separator. -/
def joinSep (sep : List Char) : List (List Char) → List Char
  | [] => []
  | [x] => x
  | x :: y :: rest => x ++ sep ++ joinSep sep (y :: rest)

/-- The escape rules exactly as the spec words them (§4.2 encode): `"`, `\`,
newline, carriage return and tab are escaped; no other character is altered.
Stated separately from `escape_json_string` to compare the two. -/
def escRuleSpec (c : Char) : List Char :=
  if c = '"' then ['\\', '"']
  else if c = '\\' then ['\\', '\\']
  else if c = '\n' then ['\\', 'n']
  else if c = '\r' then ['\\', 'r']
  else if c = '\t' then ['\\', 't']
  else [c]

/-- The spec's wording of one encoded entry: `"<id>":[<dates>]`, dates
comma-separated, each escaped then quoted. -/
def entrySpec (p : Int × List String) : List Char :=
  '"' :: intRepr p.1 ++ '"' :: ':' :: '[' ::
    (joinSep [','] (p.2.map (fun d => '"' :: (d.data.map escRuleSpec).flatten ++ ['"'])) ++ [']'])

/-- The spec's wording of the whole encoded text: `{` then comma-separated
entries then `}`. -/
def saveSpec (s : Store) : List Char :=
  '\x7b' :: (joinSep [','] (s.map entrySpec) ++ ['\x7d'])

/-- The characters of one encoded entry exactly as `saveData` produces them. -/
def entryChars (p : Int × List String) : List Char :=
  '"' :: intRepr p.1 ++ '"' :: ':' :: '[' :: ((datesOut p.2).data ++ [']'])

/-! ## Basic store lemmas -/

theorem lookup_setDates_self (s : Store) (r : Int) (ds : List String) :
    lookup (setDates s r ds) r = some ds := by
  induction s with
  | nil => simp [setDates, lookup]
  | cons p rest ih =>
    obtain ⟨k, v⟩ := p
    by_cases h1 : r < k
    · simp [setDates, h1, lookup]
    · by_cases h2 : r = k
      · simp [setDates, h1, h2, lookup]
      · simp [setDates, h1, h2, lookup, ih]

theorem lookup_setDates_other (s : Store) (r r' : Int) (ds : List String) (h : r' ≠ r) :
    lookup (setDates s r ds) r' = lookup s r' := by
  induction s with
  | nil => simp [setDates, lookup, h]
  | cons p rest ih =>
    obtain ⟨k, v⟩ := p
    by_cases h1 : r < k
    · simp [setDates, h1, lookup, h]
    · by_cases h2 : r = k
      · subst h2
        simp [setDates, h1, lookup, h]
      · by_cases h3 : r' = k
        · simp [setDates, h1, h2, lookup, h3]
        · simp [setDates, h1, h2, lookup, h3, ih]

theorem getDates_setDates_self (s : Store) (r : Int) (ds : List String) :
    getDates (setDates s r ds) r = ds := by
  simp [getDates, lookup_setDates_self]

theorem getDates_setDates_other (s : Store) (r r' : Int) (ds : List String) (h : r' ≠ r) :
    getDates (setDates s r ds) r' = getDates s r' := by
  simp [getDates, lookup_setDates_other _ _ _ _ h]

theorem sortDates_sorted (ds : List String) : List.Sorted dle (sortDates ds) :=
  List.sorted_insertionSort dle ds

theorem sortDates_perm (ds : List String) : List.Perm (sortDates ds) ds :=
  List.perm_insertionSort dle ds

theorem sortDates_eq_of_sorted {ds : List String} (h : List.Sorted dle ds) :
    sortDates ds = ds :=
  List.Sorted.insertionSort_eq h

theorem mem_sortDates {d : String} {ds : List String} : d ∈ sortDates ds ↔ d ∈ ds :=
  (sortDates_perm ds).mem_iff

theorem length_sortDates (ds : List String) : (sortDates ds).length = ds.length :=
  (sortDates_perm ds).length_eq

theorem nodup_sortDates {ds : List String} (h : ds.Nodup) : (sortDates ds).Nodup :=
  ((sortDates_perm ds).nodup_iff).mpr h

/-! ## C1: marking twice -/

/-- C1: for every store, id and date with the date not yet in the id's
DateSet, `markAttendance` returns the success result and afterwards the date
is in the DateSet; calling it again with the same pair returns the
duplicate-error result; over the two calls the DateSet length grows by
exactly 1, not 2. -/
theorem C1_mark_twice (s : Store) (r : Int) (d : String) (h : d ∉ getDates s r) :
    (markAttendance s r d).1 = markSuccessMsg r d ∧
    d ∈ getDates (markAttendance s r d).2 r ∧
    (markAttendance (markAttendance s r d).2 r d).1 = markDupMsg r d ∧
    (getDates (markAttendance (markAttendance s r d).2 r d).2 r).length
      = (getDates s r).length + 1 := by
  have hmark : markAttendance s r d
      = (markSuccessMsg r d, setDates s r (sortDates (getDates s r ++ [d]))) := by
    simp [markAttendance, h]
  have hg1 : getDates (setDates s r (sortDates (getDates s r ++ [d]))) r
      = sortDates (getDates s r ++ [d]) := getDates_setDates_self _ _ _
  have hmem : d ∈ getDates (setDates s r (sortDates (getDates s r ++ [d]))) r := by
    rw [hg1]
    exact mem_sortDates.mpr (by simp)
  have hmark2 : markAttendance (setDates s r (sortDates (getDates s r ++ [d]))) r d
      = (markDupMsg r d,
         setDates (setDates s r (sortDates (getDates s r ++ [d]))) r
           (getDates (setDates s r (sortDates (getDates s r ++ [d]))) r)) := by
    simp [markAttendance, hmem]
  refine ⟨by rw [hmark], ?_, ?_, ?_⟩
  · rw [hmark]
    exact hmem
  · rw [hmark, hmark2]
  · rw [hmark, hmark2, getDates_setDates_self, hg1, length_sortDates]
    simp

/-- Witness for C1 at a concrete input. -/
theorem C1_mark_twice_witness :
    "2025-07-01" ∉ getDates [] 101 ∧
    ((markAttendance [] 101 "2025-07-01").1 = markSuccessMsg 101 "2025-07-01" ∧
     "2025-07-01" ∈ getDates (markAttendance [] 101 "2025-07-01").2 101 ∧
     (markAttendance (markAttendance [] 101 "2025-07-01").2 101 "2025-07-01").1
       = markDupMsg 101 "2025-07-01" ∧
     (getDates (markAttendance (markAttendance [] 101 "2025-07-01").2 101 "2025-07-01").2
        101).length = (getDates [] 101).length + 1) :=
  ⟨by decide, C1_mark_twice [] 101 "2025-07-01" (by decide)⟩

/-! ## C2: DateSet invariant under mark sequences -/

theorem mark_preserves_dateInv (s : Store) (r : Int) (d : String)
    (h : ∀ q, List.Sorted dle (getDates s q) ∧ (getDates s q).Nodup) (q : Int) :
    List.Sorted dle (getDates (markAttendance s r d).2 q) ∧
    (getDates (markAttendance s r d).2 q).Nodup := by
  by_cases hm : d ∈ getDates s r
  · have hstep : (markAttendance s r d).2 = setDates s r (getDates s r) := by
      simp [markAttendance, hm]
    rw [hstep]
    by_cases hq : q = r
    · subst hq
      rw [getDates_setDates_self]
      exact h q
    · rw [getDates_setDates_other _ _ _ _ hq]
      exact h q
  · have hstep : (markAttendance s r d).2 = setDates s r (sortDates (getDates s r ++ [d])) := by
      simp [markAttendance, hm]
    rw [hstep]
    by_cases hq : q = r
    · subst hq
      rw [getDates_setDates_self]
      refine ⟨sortDates_sorted _, nodup_sortDates ?_⟩
      simp [List.nodup_append, (h q).2, hm]
    · rw [getDates_setDates_other _ _ _ _ hq]
      exact h q

theorem applyMarks_dateInv (ms : List (Int × String)) :
    ∀ q, List.Sorted dle (getDates (applyMarks ms) q) ∧ (getDates (applyMarks ms) q).Nodup := by
  suffices h : ∀ (ms : List (Int × String)) (s : Store),
      (∀ q, List.Sorted dle (getDates s q) ∧ (getDates s q).Nodup) →
      ∀ q, List.Sorted dle
          (getDates (ms.foldl (fun s m => (markAttendance s m.1 m.2).2) s) q) ∧
        (getDates (ms.foldl (fun s m => (markAttendance s m.1 m.2).2) s) q).Nodup by
    exact h ms [] (fun q => by simp [getDates, lookup])
  intro ms
  induction ms with
  | nil =>
    intro s hs
    simpa using hs
  | cons m rest ih =>
    intro s hs
    simp only [List.foldl_cons]
    exact ih _ (mark_preserves_dateInv s m.1 m.2 hs)

/-- C2: starting from the empty store, after any finite sequence of
`markAttendance` calls every id's DateSet is sorted in ascending lexicographic
order and contains no duplicate date strings. -/
theorem C2_dateSet_invariant (ms : List (Int × String)) (r : Int) :
    List.Sorted dle (getDates (applyMarks ms) r) ∧ (getDates (applyMarks ms) r).Nodup :=
  applyMarks_dateInv ms r

/-! ## C7: viewAttendance -/

/-- C7: `viewAttendance` returns the success result carrying the id and the
full ordered DateSet when the id is present, and the not-found error result
carrying the id when it is absent. -/
theorem C7_view (s : Store) (r : Int) :
    ((lookup s r).isSome → viewAttendance s r = viewSuccessMsg r (getDates s r)) ∧
    (lookup s r = none → viewAttendance s r = viewNotFoundMsg r) := by
  constructor
  · intro h
    match hl : lookup s r with
    | some ds => simp [viewAttendance, hl, getDates]
    | none =>
      rw [hl] at h
      simp at h
  · intro h
    simp [viewAttendance, h]

/-- Witness for C7 at concrete inputs: id 1 present, id 999 absent. -/
theorem C7_view_witness :
    (lookup [((1 : Int), ["a"])] 1).isSome ∧
    viewAttendance [((1 : Int), ["a"])] 1 = viewSuccessMsg 1 (getDates [((1 : Int), ["a"])] 1) ∧
    lookup ([] : Store) 999 = none ∧
    viewAttendance ([] : Store) 999 = viewNotFoundMsg 999 :=
  ⟨by decide, (C7_view [((1 : Int), ["a"])] 1).1 (by decide), by decide,
   (C7_view ([] : Store) 999).2 (by decide)⟩

/-! ## C10: frame properties -/

/-- C10: `viewAttendance` and `getOverallStats` leave the store unchanged
(const methods), and `markAttendance` for one id leaves every other id's
entry unchanged. -/
theorem C10_frame :
    (∀ (s : Store) (r : Int), (step s (.view r)).2 = s) ∧
    (∀ s : Store, (step s .stats).2 = s) ∧
    (∀ (s : Store) (r : Int) (d : String) (r2 : Int), r2 ≠ r →
      lookup ((step s (.mark r d)).2) r2 = lookup s r2) := by
  refine ⟨fun s r => rfl, fun s => rfl, fun s r d r2 h => ?_⟩
  by_cases hm : d ∈ getDates s r
  · have hstep : (step s (.mark r d)).2 = setDates s r (getDates s r) := by
      simp [step, markAttendance, hm]
    rw [hstep, lookup_setDates_other _ _ _ _ h]
  · have hstep : (step s (.mark r d)).2 = setDates s r (sortDates (getDates s r ++ [d])) := by
      simp [step, markAttendance, hm]
    rw [hstep, lookup_setDates_other _ _ _ _ h]

/-- Witness for C10's mark-frame clause at a concrete input. -/
theorem C10_frame_witness :
    (2 : Int) ≠ 1 ∧
    lookup ((step [((2 : Int), ["b"])] (.mark 1 "a")).2) 2 = lookup [((2 : Int), ["b"])] 2 :=
  ⟨by decide, C10_frame.2.2 [((2 : Int), ["b"])] 1 "a" 2 (by decide)⟩

/-! ## C4: overall statistics -/

theorem dlt_trans {a b c : String} (h1 : dlt a b) (h2 : dlt b c) : dlt a c := lt_trans h1 h2

theorem dlt_ne {a b : String} (h : dlt a b) : a ≠ b := by
  intro he
  subst he
  exact lt_irrefl a.data h

theorem dlt_of_not {d x : String} (h1 : ¬dlt d x) (h2 : d ≠ x) : dlt x d := by
  have hle : x.data ≤ d.data := le_of_not_lt h1
  have hne : x.data ≠ d.data := by
    intro he
    apply h2
    cases d
    cases x
    exact congrArg String.mk he.symm
  exact lt_of_le_of_ne hle hne

theorem mem_setInsert (x d : String) (l : List String) :
    x ∈ setInsert d l ↔ x = d ∨ x ∈ l := by
  induction l with
  | nil => simp [setInsert]
  | cons y ys ih =>
    simp only [setInsert]
    by_cases h1 : dlt d y
    · rw [if_pos h1]
      simp only [List.mem_cons]
    · rw [if_neg h1]
      by_cases h2 : d = y
      · rw [if_pos h2]
        subst h2
        simp only [List.mem_cons]
        tauto
      · rw [if_neg h2]
        simp only [List.mem_cons, ih]
        tauto

theorem setInsert_sorted {l : List String} (h : List.Sorted dlt l) (d : String) :
    List.Sorted dlt (setInsert d l) := by
  induction l with
  | nil => simp [setInsert]
  | cons y ys ih =>
    rw [List.sorted_cons] at h
    obtain ⟨hy, hys⟩ := h
    simp only [setInsert]
    by_cases h1 : dlt d y
    · rw [if_pos h1]
      rw [List.sorted_cons]
      refine ⟨fun b hb => ?_, List.sorted_cons.mpr ⟨hy, hys⟩⟩
      rcases List.mem_cons.mp hb with rfl | hb
      · exact h1
      · exact dlt_trans h1 (hy b hb)
    · rw [if_neg h1]
      by_cases h2 : d = y
      · rw [if_pos h2]
        exact List.sorted_cons.mpr ⟨hy, hys⟩
      · rw [if_neg h2]
        rw [List.sorted_cons]
        refine ⟨fun b hb => ?_, ih hys⟩
        rcases (mem_setInsert b d ys).mp hb with rfl | hb
        · exact dlt_of_not h1 h2
        · exact hy b hb

theorem dateFold_inv (ds : List String) :
    ∀ u : List String, List.Sorted dlt u →
      List.Sorted dlt (ds.foldl (fun uu d => setInsert d uu) u) ∧
      (∀ x, x ∈ ds.foldl (fun uu d => setInsert d uu) u ↔ x ∈ u ∨ x ∈ ds) := by
  induction ds with
  | nil =>
    intro u hu
    simpa using hu
  | cons d rest ih =>
    intro u hu
    simp only [List.foldl_cons]
    obtain ⟨hs, hm⟩ := ih (setInsert d u) (setInsert_sorted hu d)
    refine ⟨hs, fun x => ?_⟩
    rw [hm x, mem_setInsert, List.mem_cons]
    tauto

theorem statsLoop_inv (s : Store) :
    ∀ (n : Nat) (u : List String), List.Sorted dlt u →
      (s.foldl
          (fun acc p => (acc.1 + p.2.length, p.2.foldl (fun uu d => setInsert d uu) acc.2))
          (n, u)).1 = n + (s.map (fun p => p.2.length)).sum ∧
      List.Sorted dlt (s.foldl
          (fun acc p => (acc.1 + p.2.length, p.2.foldl (fun uu d => setInsert d uu) acc.2))
          (n, u)).2 ∧
      (∀ x, x ∈ (s.foldl
          (fun acc p => (acc.1 + p.2.length, p.2.foldl (fun uu d => setInsert d uu) acc.2))
          (n, u)).2 ↔ x ∈ u ∨ ∃ p ∈ s, x ∈ p.2) := by
  induction s with
  | nil =>
    intro n u hu
    simpa using hu
  | cons p rest ih =>
    intro n u hu
    simp only [List.foldl_cons]
    obtain ⟨hdsort, hdmem⟩ := dateFold_inv p.2 u hu
    obtain ⟨h1, h2, h3⟩ := ih (n + p.2.length) (p.2.foldl (fun uu d => setInsert d uu) u) hdsort
    refine ⟨?_, h2, fun x => ?_⟩
    · rw [h1, List.map_cons, List.sum_cons]
      omega
    · rw [h3 x]
      simp only [hdmem x, List.mem_cons]
      constructor
      · rintro ((hx | hx) | ⟨q, hq, hxq⟩)
        · exact Or.inl hx
        · exact Or.inr ⟨p, Or.inl rfl, hx⟩
        · exact Or.inr ⟨q, Or.inr hq, hxq⟩
      · rintro (hx | ⟨q, (rfl | hq), hxq⟩)
        · exact Or.inl (Or.inl hx)
        · exact Or.inl (Or.inr hxq)
        · exact Or.inr ⟨q, hq, hxq⟩

/-- C4: `getOverallStats` returns the number of distinct ids, the number of
distinct dates in the union of all DateSets, and the total number of
attendance entries; on the empty store all three are 0. -/
theorem C4_stats (s : Store) (h : keysOrdered s) :
    getOverallStatsNums s
      = ((s.map Prod.fst).toFinset.card,
         (s.map Prod.snd).flatten.toFinset.card,
         (s.map (fun p => p.2.length)).sum) ∧
    getOverallStatsNums ([] : Store) = (0, 0, 0) := by
  refine ⟨?_, by decide⟩
  obtain ⟨h1, h2, h3⟩ := statsLoop_inv s 0 [] List.sorted_nil
  have hkeys : (s.map Prod.fst).Nodup := h.imp ne_of_lt
  have hstudents : s.length = (s.map Prod.fst).toFinset.card := by
    rw [List.toFinset_card_of_nodup hkeys, List.length_map]
  have h2' : List.Sorted dlt (statsLoop s).2 := h2
  have h3' : ∀ x, x ∈ (statsLoop s).2 ↔ x ∈ ([] : List String) ∨ ∃ p ∈ s, x ∈ p.2 := h3
  have hnodupU : (statsLoop s).2.Nodup := h2'.imp dlt_ne
  have humem : ∀ x, x ∈ (statsLoop s).2 ↔ x ∈ (s.map Prod.snd).flatten := by
    intro x
    rw [h3' x]
    simp only [List.mem_flatten, List.not_mem_nil, false_or]
    constructor
    · rintro ⟨p, hp, hx⟩
      exact ⟨p.2, List.mem_map.mpr ⟨p, hp, rfl⟩, hx⟩
    · rintro ⟨l, hl, hx⟩
      obtain ⟨p, hp, rfl⟩ := List.mem_map.mp hl
      exact ⟨p, hp, hx⟩
  have huniq : (statsLoop s).2.length = (s.map Prod.snd).flatten.toFinset.card := by
    rw [← List.toFinset_card_of_nodup hnodupU]
    congr 1
    ext x
    simp only [List.mem_toFinset]
    exact humem x
  have h1' : (statsLoop s).1 = 0 + (s.map (fun p => p.2.length)).sum := h1
  have hsum : (statsLoop s).1 = (s.map (fun p => p.2.length)).sum := by omega
  simp only [getOverallStatsNums]
  rw [hstudents, huniq, hsum]

/-- Witness for C4 at the spec's three-mark scenario store. -/
theorem C4_stats_witness :
    keysOrdered [((101 : Int), ["2025-07-01", "2025-07-02"]), (102, ["2025-07-01"])] ∧
    (getOverallStatsNums [((101 : Int), ["2025-07-01", "2025-07-02"]), (102, ["2025-07-01"])]
      = (([((101 : Int), ["2025-07-01", "2025-07-02"]), (102, ["2025-07-01"])].map
            Prod.fst).toFinset.card,
         ([((101 : Int), ["2025-07-01", "2025-07-02"]), (102, ["2025-07-01"])].map
            Prod.snd).flatten.toFinset.card,
         ([((101 : Int), ["2025-07-01", "2025-07-02"]), (102, ["2025-07-01"])].map
            (fun p => p.2.length)).sum) ∧
     getOverallStatsNums ([] : Store) = (0, 0, 0)) :=
  ⟨by decide,
   C4_stats [((101 : Int), ["2025-07-01", "2025-07-02"]), (102, ["2025-07-01"])] (by decide)⟩

/-! ## C9: the map is key-ordered; encode is deterministic -/

theorem mem_keys_setDates (s : Store) (r x : Int) (ds : List String) :
    x ∈ (setDates s r ds).map Prod.fst ↔ x = r ∨ x ∈ s.map Prod.fst := by
  induction s with
  | nil => simp [setDates]
  | cons p rest ih =>
    obtain ⟨k, v⟩ := p
    simp only [setDates]
    by_cases h1 : r < k
    · rw [if_pos h1]
      simp only [List.map_cons, List.mem_cons]
    · rw [if_neg h1]
      by_cases h2 : r = k
      · rw [if_pos h2]
        subst h2
        simp only [List.map_cons, List.mem_cons]
        tauto
      · rw [if_neg h2]
        simp only [List.map_cons, List.mem_cons, ih]
        tauto

theorem keysOrdered_setDates (s : Store) (r : Int) (ds : List String) (h : keysOrdered s) :
    keysOrdered (setDates s r ds) := by
  induction s with
  | nil => simp [setDates, keysOrdered]
  | cons p rest ih =>
    obtain ⟨k, v⟩ := p
    rw [keysOrdered, List.map_cons, List.pairwise_cons] at h
    obtain ⟨hk, hrest⟩ := h
    rw [keysOrdered]
    simp only [setDates]
    by_cases h1 : r < k
    · rw [if_pos h1]
      simp only [List.map_cons, List.pairwise_cons]
      refine ⟨?_, ?_⟩
      · intro x hx
        rcases List.mem_cons.mp hx with rfl | hx
        · exact h1
        · exact lt_trans h1 (hk x hx)
      · exact ⟨hk, hrest⟩
    · by_cases h2 : r = k
      · rw [if_neg h1, if_pos h2]
        subst h2
        simp only [List.map_cons, List.pairwise_cons]
        exact ⟨hk, hrest⟩
      · rw [if_neg h1, if_neg h2]
        simp only [List.map_cons, List.pairwise_cons]
        refine ⟨?_, ih hrest⟩
        intro x hx
        rcases (mem_keys_setDates rest r x ds).mp hx with rfl | hx
        · omega
        · exact hk x hx

theorem markAttendance_keysOrdered (s : Store) (r : Int) (d : String) (h : keysOrdered s) :
    keysOrdered (markAttendance s r d).2 := by
  by_cases hm : d ∈ getDates s r
  · have hstep : (markAttendance s r d).2 = setDates s r (getDates s r) := by
      simp [markAttendance, hm]
    rw [hstep]
    exact keysOrdered_setDates _ _ _ h
  · have hstep : (markAttendance s r d).2 = setDates s r (sortDates (getDates s r ++ [d])) := by
      simp [markAttendance, hm]
    rw [hstep]
    exact keysOrdered_setDates _ _ _ h

theorem applyMarks_keysOrdered (ms : List (Int × String)) : keysOrdered (applyMarks ms) := by
  suffices h : ∀ (ms : List (Int × String)) (s : Store), keysOrdered s →
      keysOrdered (ms.foldl (fun s m => (markAttendance s m.1 m.2).2) s) by
    exact h ms [] (by simp [keysOrdered])
  intro ms
  induction ms with
  | nil =>
    intro s hs
    simpa using hs
  | cons m rest ih =>
    intro s hs
    simp only [List.foldl_cons]
    exact ih _ (markAttendance_keysOrdered s m.1 m.2 hs)

theorem insertDatesSorted_keysOrdered (s : Store) (r : Int) (ds : List String)
    (h : keysOrdered s) : keysOrdered (insertDatesSorted s r ds) :=
  keysOrdered_setDates _ _ _ h

theorem procMid_keysOrdered {s s' : Store} {seg : List Char} (h : keysOrdered s)
    (he : procMid s seg = some s') : keysOrdered s' := by
  unfold procMid at he
  split at he
  · injection he with he
    rw [← he]
    exact h
  · split at he
    · cases he
    · split at he
      · injection he with he
        rw [← he]
        exact h
      · injection he with he
        rw [← he]
        exact insertDatesSorted_keysOrdered _ _ _ h

theorem procLast_keysOrdered {s s' : Store} {seg : List Char} (h : keysOrdered s)
    (he : procLast s seg = some s') : keysOrdered s' := by
  unfold procLast at he
  split at he
  · injection he with he
    rw [← he]
    exact h
  · split at he
    · cases he
    · injection he with he
      rw [← he]
      exact insertDatesSorted_keysOrdered _ _ _ h

theorem runSegs_keysOrdered :
    ∀ (segs : List (List Char)) (s s' : Store), keysOrdered s →
      runSegs s segs = some s' → keysOrdered s' := by
  intro segs
  induction segs with
  | nil =>
    intro s s' h he
    unfold runSegs at he
    injection he with he
    rw [← he]
    exact h
  | cons seg rest ih =>
    intro s s' h he
    cases rest with
    | nil =>
      rw [show runSegs s [seg] = procLast s seg from rfl] at he
      exact procLast_keysOrdered h he
    | cons seg2 rest2 =>
      unfold runSegs at he
      rcases hm : procMid s seg with _ | s2
      · rw [hm] at he
        cases he
      · rw [hm] at he
        exact ih s2 s' (procMid_keysOrdered h hm) he

theorem loadData_keysOrdered (t : String) : keysOrdered (loadData t).2 := by
  simp only [loadData]
  split
  · simp [keysOrdered]
  · split
    · simp [keysOrdered]
    · split
      · next st hr => exact runSegs_keysOrdered _ [] st (by simp [keysOrdered]) hr
      · simp [keysOrdered]

theorem mem_of_lookup_eq_some {s : Store} {r : Int} {v : List String}
    (h : lookup s r = some v) : r ∈ s.map Prod.fst := by
  induction s with
  | nil => simp [lookup] at h
  | cons p rest ih =>
    obtain ⟨k, vv⟩ := p
    by_cases hr : r = k
    · subst hr
      simp
    · simp only [lookup, if_neg hr] at h
      simp only [List.map_cons, List.mem_cons]
      exact Or.inr (ih h)

theorem lookup_eq_none {s : Store} {r : Int} (h : r ∉ s.map Prod.fst) : lookup s r = none := by
  induction s with
  | nil => rfl
  | cons p rest ih =>
    obtain ⟨k, v⟩ := p
    simp only [List.map_cons, List.mem_cons] at h
    push_neg at h
    simp only [lookup, if_neg h.1]
    exact ih h.2

theorem store_ext {s1 : Store} :
    ∀ {s2 : Store}, keysOrdered s1 → keysOrdered s2 →
      (∀ r, lookup s1 r = lookup s2 r) → s1 = s2 := by
  induction s1 with
  | nil =>
    intro s2 _ _ h
    cases s2 with
    | nil => rfl
    | cons q rest2 =>
      obtain ⟨k2, v2⟩ := q
      have hk := h k2
      simp [lookup] at hk
  | cons p rest ih =>
    intro s2 h1 h2 h
    obtain ⟨k, v⟩ := p
    cases s2 with
    | nil =>
      have hk := h k
      simp [lookup] at hk
    | cons q rest2 =>
      obtain ⟨k2, v2⟩ := q
      rw [keysOrdered, List.map_cons, List.pairwise_cons] at h1 h2
      obtain ⟨hk1, hrest1⟩ := h1
      obtain ⟨hk2, hrest2⟩ := h2
      have hkeq : k = k2 := by
        by_contra hne
        have ha : lookup ((k2, v2) :: rest2) k = some v := by
          rw [← h k]
          simp [lookup]
        have hb : lookup ((k, v) :: rest) k2 = some v2 := by
          rw [h k2]
          simp [lookup]
        rw [lookup, if_neg hne] at ha
        have hlt1 : k2 < k := hk2 k (mem_of_lookup_eq_some ha)
        rw [lookup, if_neg (fun he => hne he.symm)] at hb
        have hlt2 : k < k2 := hk1 k2 (mem_of_lookup_eq_some hb)
        omega
      subst hkeq
      have hveq : v = v2 := by
        have hk := h k
        simp [lookup] at hk
        exact hk
      subst hveq
      have htail : ∀ r, lookup rest r = lookup rest2 r := by
        intro r
        by_cases hr : r = k
        · subst hr
          rw [lookup_eq_none (fun hm => lt_irrefl r (hk1 r hm)),
            lookup_eq_none (fun hm => lt_irrefl r (hk2 r hm))]
        · have := h r
          simpa [lookup, if_neg hr] using this
      rw [ih hrest1 hrest2 htail]

/-- C9 (implicit): the backing map is key-ordered — after any mark sequence
and after any decode the store's keys are strictly ascending, so `saveData`
emits entries in ascending id order — and encode is deterministic: stores
that are equal as maps produce identical output text. -/
theorem C9_ordered_deterministic :
    (∀ ms : List (Int × String), keysOrdered (applyMarks ms)) ∧
    (∀ t : String, keysOrdered (loadData t).2) ∧
    (∀ s1 s2 : Store, keysOrdered s1 → keysOrdered s2 →
      (∀ r, lookup s1 r = lookup s2 r) → saveData s1 = saveData s2) :=
  ⟨applyMarks_keysOrdered, loadData_keysOrdered,
   fun _ _ h1 h2 h => by rw [store_ext h1 h2 h]⟩

/-- Witness for C9's determinism clause at a concrete store. -/
theorem C9_ordered_deterministic_witness :
    keysOrdered [((1 : Int), ["a"])] ∧
    saveData [((1 : Int), ["a"])] = saveData [((1 : Int), ["a"])] :=
  ⟨by decide,
   C9_ordered_deterministic.2.2 [((1 : Int), ["a"])] [((1 : Int), ["a"])]
     (by decide) (by decide) (fun _ => rfl)⟩

/-! ## C5: decode error handling -/

theorem procMid_none_of_bad {s : Store} {seg k v : List Char}
    (hc : splitAtColon? seg = some (k, v)) (hs : stoi? (stripQuotes k) = none) :
    procMid s seg = none := by
  simp only [procMid, hc, hs]

theorem procLast_none_of_bad {s : Store} {seg k v : List Char}
    (hc : splitAtColon? seg = some (k, v)) (hs : stoi? (stripQuotes k) = none) :
    procLast s seg = none := by
  simp only [procLast, hc, hs]

theorem runSegs_badId :
    ∀ (segs : List (List Char)) (s : Store),
      (∃ seg ∈ segs, ∃ k v, splitAtColon? seg = some (k, v) ∧ stoi? (stripQuotes k) = none) →
      runSegs s segs = none := by
  intro segs
  induction segs with
  | nil =>
    rintro s ⟨seg, hmem, -⟩
    simp at hmem
  | cons seg rest ih =>
    rintro s ⟨seg0, hmem, k, v, hc, hs⟩
    cases rest with
    | nil =>
      rw [List.mem_singleton] at hmem
      subst hmem
      show procLast s seg0 = none
      exact procLast_none_of_bad hc hs
    | cons seg2 rest2 =>
      rcases List.mem_cons.mp hmem with rfl | hmem2
      · show (match procMid s seg0 with
          | none => none
          | some s2 => runSegs s2 (seg2 :: rest2)) = none
        rw [procMid_none_of_bad hc hs]
      · show (match procMid s seg with
          | none => none
          | some s2 => runSegs s2 (seg2 :: rest2)) = none
        rcases hm : procMid s seg with _ | s2
        · rfl
        · exact ih s2 ⟨seg0, hmem2, k, v, hc, hs⟩

/-- C5: decoding the empty string yields an empty store and "no data", which
is distinct from a parse error; a nonempty text shorter than 2 characters or
not wrapped in an outer brace pair yields a parse error and an empty store; a
brace-wrapped text containing a top-level entry whose key is not
integer-parseable yields a parse error and an empty store; and every
parse-error outcome leaves the store empty (decode is atomic on error). -/
theorem C5_decode_errors :
    loadData "" = (LoadResult.noData, []) ∧
    LoadResult.noData ≠ LoadResult.parseError ∧
    (∀ t : String, t ≠ "" →
      ¬(t.data.length ≥ 2 ∧ t.data.head? = some '\x7b' ∧ t.data.getLast? = some '\x7d') →
      loadData t = (LoadResult.parseError, [])) ∧
    (∀ t : String,
      (t.data.length ≥ 2 ∧ t.data.head? = some '\x7b' ∧ t.data.getLast? = some '\x7d') →
      (∃ seg ∈ splitTop ((t.data.drop 1).dropLast) 0 0 [], ∃ k v,
        splitAtColon? seg = some (k, v) ∧ stoi? (stripQuotes k) = none) →
      loadData t = (LoadResult.parseError, [])) ∧
    (∀ t : String, (loadData t).1 = LoadResult.parseError → (loadData t).2 = []) := by
  refine ⟨by decide, by decide, ?_, ?_, ?_⟩
  · intro t ht hcond
    have hne : t.data.isEmpty ≠ true := by
      intro hemp
      apply ht
      obtain ⟨data⟩ := t
      rw [show String.data ⟨data⟩ = data from rfl, List.isEmpty_iff] at hemp
      subst hemp
      rfl
    simp only [loadData]
    rw [if_neg hne, if_pos hcond]
  · intro t hcond hbad
    have hne : t.data.isEmpty ≠ true := by
      intro hemp
      rw [List.isEmpty_iff] at hemp
      rw [hemp] at hcond
      simp at hcond
    simp only [loadData]
    rw [if_neg hne, if_neg (not_not_intro hcond), runSegs_badId _ [] hbad]
  · intro t
    simp only [loadData]
    split
    · intro _
      rfl
    · split
      · intro _
        rfl
      · split
        · intro h
          simp at h
        · intro _
          rfl

/-- Witness for C5's parse-error clauses at concrete inputs. -/
theorem C5_decode_errors_witness :
    loadData "x" = (LoadResult.parseError, []) ∧
    loadData "\x7ba:[]\x7d" = (LoadResult.parseError, []) :=
  ⟨C5_decode_errors.2.2.1 "x" (by decide) (by decide),
   C5_decode_errors.2.2.2.1 "\x7ba:[]\x7d" (by decide)
     ⟨['a', ':', '[', ']'], by decide, ['a'], ['[', ']'], by decide, by decide⟩⟩

/-! ## C6: skipping of entries with non-bracketed values -/

/-- C6 counterexample: in the decode input whose single (and therefore last,
non-comma-terminated) top-level entry has the non-bracketed value `"a"`, the
entry is NOT skipped: decode parses the raw value and the entry contributes
the date `a` to id 1's DateSet. -/
theorem C6_last_entry_counterexample :
    loadData "\x7b\"1\":\"a\"\x7d" = (LoadResult.ok, [(1, ["a"])]) ∧
    getDates (loadData "\x7b\"1\":\"a\"\x7d").2 1 = ["a"] := by
  constructor <;> decide

/-- C6 amended: a comma-terminated top-level entry whose value part is not
bracket-surrounded is skipped without contributing dates and without aborting
(decoding continues with the remaining entries); but the last,
non-comma-terminated entry is not skipped — its raw value is parsed as a
comma-separated date list (see the counterexample). -/
theorem C6_mid_entry_skipped (store : Store) (seg k v : List Char) (r : Int)
    (hc : splitAtColon? seg = some (k, v))
    (hr : stoi? (stripQuotes k) = some r)
    (hb : stripBrackets? v = none) :
    procMid store seg = some store ∧
    (∀ seg2 rest2, runSegs store (seg :: seg2 :: rest2) = runSegs store (seg2 :: rest2)) := by
  have hskip : procMid store seg = some store := by
    simp only [procMid, hc, hr, hb]
  refine ⟨hskip, fun seg2 rest2 => ?_⟩
  show (match procMid store seg with
    | none => none
    | some s2 => runSegs s2 (seg2 :: rest2)) = runSegs store (seg2 :: rest2)
  rw [hskip]

/-- Witness for C6's amended theorem at a concrete segment `"1":x`. -/
theorem C6_mid_entry_skipped_witness :
    splitAtColon? ['"', '1', '"', ':', 'x'] = some (['"', '1', '"'], ['x']) ∧
    stoi? (stripQuotes ['"', '1', '"']) = some 1 ∧
    stripBrackets? ['x'] = none ∧
    (procMid [] ['"', '1', '"', ':', 'x'] = some [] ∧
     (∀ seg2 rest2, runSegs [] (['"', '1', '"', ':', 'x'] :: seg2 :: rest2)
        = runSegs [] (seg2 :: rest2))) :=
  ⟨by decide, by decide, by decide,
   C6_mid_entry_skipped [] ['"', '1', '"', ':', 'x'] ['"', '1', '"'] ['x'] 1
     (by decide) (by decide) (by decide)⟩

/-! ## C8: encoder output shape and escaping -/

theorem data_comma : ("," : String).data = [','] := rfl

theorem data_dq : ("\"" : String).data = ['"'] := rfl

theorem data_nil : ("" : String).data = [] := rfl

theorem data_quoteColonBracket : ("\":[" : String).data = ['"', ':', '['] := rfl

theorem data_closeBracket : ("]" : String).data = [']'] := rfl

theorem intReprS_data (i : Int) : (intReprS i).data = intRepr i := rfl

theorem escape_eq_flatten (cs : List Char) :
    escape_json_string cs = (cs.map escChar).flatten := by
  suffices h : ∀ (cs acc : List Char),
      cs.foldl (fun acc c => acc ++ escChar c) acc = acc ++ (cs.map escChar).flatten by
    simpa using h cs []
  intro cs
  induction cs with
  | nil =>
    intro acc
    simp
  | cons c cs ih =>
    intro acc
    simp only [List.foldl_cons, List.map_cons, List.flatten_cons]
    rw [ih]
    simp [List.append_assoc]

theorem escapeS_data (d : String) : (escapeS d).data = (d.data.map escRuleSpec).flatten := by
  show escape_json_string d.data = _
  rw [escape_eq_flatten]
  rfl

theorem joinSep_cons_cons (sep x y : List Char) (ys : List (List Char)) :
    joinSep sep (x :: y :: ys) = x ++ sep ++ joinSep sep (y :: ys) := rfl

theorem joinSep_comma_eq (x : List Char) (xs : List (List Char)) :
    joinSep [','] (x :: xs) = x ++ (xs.map (fun y => ',' :: y)).flatten := by
  induction xs generalizing x with
  | nil => simp [joinSep]
  | cons y ys ih =>
    rw [joinSep_cons_cons, ih y]
    simp [List.append_assoc]

theorem datesOut_data (ds : List String) :
    (datesOut ds).data = joinSep [','] (ds.map (fun d => '"' :: (escapeS d).data ++ ['"'])) := by
  have haux : ∀ (rest : List String) (pre : String),
      ((rest.foldl (fun (acc : String × Bool) d =>
          (acc.1 ++ (if acc.2 then "" else ",") ++ "\"" ++ escapeS d ++ "\"", false))
        (pre, false)).1).data
      = pre.data ++ (rest.map (fun d => ',' :: '"' :: (escapeS d).data ++ ['"'])).flatten := by
    intro rest
    induction rest with
    | nil =>
      intro pre
      simp
    | cons d2 r2 ih =>
      intro pre
      simp only [List.foldl_cons, Bool.false_eq_true, if_false]
      rw [ih]
      simp [String.data_append, data_comma, data_dq, List.append_assoc]
  cases ds with
  | nil => rfl
  | cons d rest =>
    simp only [datesOut, List.foldl_cons, if_true]
    rw [haux]
    rw [List.map_cons, joinSep_comma_eq]
    simp [String.data_append, data_comma, data_dq, data_nil, List.append_assoc, List.map_map,
      Function.comp_def]

theorem saveBody_data (s : Store) :
    (saveBody s).data = joinSep [','] (s.map entryChars) := by
  have haux : ∀ (rest : Store) (pre : String),
      ((rest.foldl (fun (acc : String × Bool) p =>
          (acc.1 ++ (if acc.2 then "" else ",") ++ "\"" ++ intReprS p.1 ++ "\":["
            ++ datesOut p.2 ++ "]", false))
        (pre, false)).1).data
      = pre.data ++ (rest.map (fun p => ',' :: entryChars p)).flatten := by
    intro rest
    induction rest with
    | nil =>
      intro pre
      simp
    | cons p2 r2 ih =>
      intro pre
      simp only [List.foldl_cons, Bool.false_eq_true, if_false]
      rw [ih]
      simp [String.data_append, data_comma, data_dq, data_quoteColonBracket, data_closeBracket,
        intReprS_data, entryChars, List.append_assoc]
  cases s with
  | nil => rfl
  | cons p rest =>
    simp only [saveBody, List.foldl_cons, if_true]
    rw [haux]
    rw [List.map_cons, joinSep_comma_eq]
    simp [String.data_append, data_comma, data_dq, data_nil, data_quoteColonBracket,
      data_closeBracket, intReprS_data, entryChars, List.append_assoc, List.map_map,
      Function.comp_def]

theorem saveData_data (s : Store) :
    (saveData s).data = '\x7b' :: ((saveBody s).data ++ ['\x7d']) := by
  show ("\x7b" ++ saveBody s ++ "\x7d").data = _
  simp [String.data_append]

theorem entryChars_eq_spec (p : Int × List String) : entryChars p = entrySpec p := by
  unfold entryChars entrySpec
  rw [datesOut_data]
  have hf : (fun d : String => '"' :: (escapeS d).data ++ ['"'])
      = fun d : String => '"' :: (d.data.map escRuleSpec).flatten ++ ['"'] := by
    funext d
    rw [escapeS_data]
  rw [hf]

theorem saveData_data_spec (s : Store) : (saveData s).data = saveSpec s := by
  rw [saveData_data, saveBody_data, show entryChars = entrySpec from funext entryChars_eq_spec]
  rfl

/-- C8: for every store, encode succeeds and produces `{` followed by
comma-separated `"<id>":[<dates>]` entries then `}`, dates comma-separated and
individually quoted after escaping by exactly the spec's five rules; no
character outside the five is altered. -/
theorem C8_encode_format (s : Store) :
    (saveData s).data = saveSpec s ∧
    (∀ c : Char, c ∉ (['"', '\\', '\n', '\r', '\t'] : List Char) → escRuleSpec c = [c]) := by
  refine ⟨saveData_data_spec s, fun c hc => ?_⟩
  simp only [List.mem_cons, List.not_mem_nil, or_false, not_or] at hc
  obtain ⟨h1, h2, h3, h4, h5⟩ := hc
  simp only [escRuleSpec, if_neg h1, if_neg h2, if_neg h3, if_neg h4, if_neg h5]

/-- Witness for C8's unescaped-character clause at a concrete character. -/
theorem C8_encode_format_witness :
    'x' ∉ (['"', '\\', '\n', '\r', '\t'] : List Char) ∧ escRuleSpec 'x' = ['x'] :=
  ⟨by decide, (C8_encode_format [((1 : Int), ["a"])]).2 'x' (by decide)⟩

/-! ## C3: round trip — top-level splitting lemmas -/

theorem splitTop_nil_eq (bc kc : Int) (acc : List Char) : splitTop [] bc kc acc = [acc.reverse] :=
  rfl

theorem scanPair_append (a b : List Char) (p : Int × Int) :
    scanPair (a ++ b) p = scanPair b (scanPair a p) := by
  induction a generalizing p with
  | nil => rfl
  | cons c a ih => simp [scanPair, ih]

theorem noSplit_append {a b : List Char} {bc kc : Int} (ha : noSplit a bc kc)
    (hb : noSplit b (scanPair a (bc, kc)).1 (scanPair a (bc, kc)).2) :
    noSplit (a ++ b) bc kc := by
  induction a generalizing bc kc with
  | nil => simpa using hb
  | cons c a ih =>
    obtain ⟨h1, h2⟩ := ha
    exact ⟨h1, ih h2 hb⟩

theorem scanPair_flat {cs : List Char}
    (h : ∀ c ∈ cs, c ≠ '\x7b' ∧ c ≠ '\x7d' ∧ c ≠ '[' ∧ c ≠ ']') (p : Int × Int) :
    scanPair cs p = p := by
  induction cs generalizing p with
  | nil => rfl
  | cons c cs ih =>
    obtain ⟨h1, h2, h3, h4⟩ := h c (by simp)
    show scanPair cs (updB c p.1, updK c p.2) = p
    rw [updB, if_neg h1, if_neg h2, updK, if_neg h3, if_neg h4]
    exact ih (fun c hc => h c (by simp [hc])) p

theorem noSplit_flat_noComma {cs : List Char} (h : ∀ c ∈ cs, c ≠ ',') :
    ∀ (bc kc : Int), noSplit cs bc kc := by
  induction cs with
  | nil =>
    intro bc kc
    trivial
  | cons c cs ih =>
    intro bc kc
    exact ⟨fun hc => (h c (by simp)) hc.1, ih (fun c hc => h c (by simp [hc])) _ _⟩

theorem noSplit_nonzero {cs : List Char}
    (hflat : ∀ c ∈ cs, c ≠ '\x7b' ∧ c ≠ '\x7d' ∧ c ≠ '[' ∧ c ≠ ']') :
    ∀ {bc kc : Int}, kc ≠ 0 → noSplit cs bc kc := by
  induction cs with
  | nil =>
    intro bc kc _
    trivial
  | cons c cs ih =>
    intro bc kc hk
    obtain ⟨h1, h2, h3, h4⟩ := hflat c (by simp)
    refine ⟨fun hc => hk hc.2.2, ?_⟩
    rw [updB, if_neg h1, if_neg h2, updK, if_neg h3, if_neg h4]
    exact ih (fun c hc => hflat c (by simp [hc])) hk

theorem splitTop_append {cs : List Char} :
    ∀ {bc kc : Int} (acc rest : List Char), noSplit cs bc kc →
      splitTop (cs ++ rest) bc kc acc
        = splitTop rest (scanPair cs (bc, kc)).1 (scanPair cs (bc, kc)).2 (cs.reverse ++ acc) := by
  induction cs with
  | nil =>
    intro bc kc acc rest _
    simp [scanPair]
  | cons c cs ih =>
    intro bc kc acc rest h
    obtain ⟨h1, h2⟩ := h
    simp only [List.cons_append, splitTop, if_neg h1, List.append_eq]
    rw [ih _ _ h2]
    simp [scanPair, List.append_assoc]

theorem splitTop_single {cs : List Char} (h : noSplit cs 0 0) : splitTop cs 0 0 [] = [cs] := by
  have hx := @splitTop_append cs 0 0 [] [] h
  rw [List.append_nil] at hx
  rw [hx, splitTop_nil_eq]
  simp

theorem splitTop_cut {e rest : List Char} (h : noSplit e 0 0)
    (hp : scanPair e (0, 0) = (0, 0)) :
    splitTop (e ++ ',' :: rest) 0 0 [] = e :: splitTop rest 0 0 [] := by
  rw [splitTop_append [] (',' :: rest) h, hp]
  show splitTop (',' :: rest) 0 0 (e.reverse ++ []) = e :: splitTop rest 0 0 []
  rw [splitTop, if_pos ⟨rfl, rfl, rfl⟩]
  simp

theorem splitTop_joinSep :
    ∀ es : List (List Char), es ≠ [] →
      (∀ e ∈ es, noSplit e 0 0 ∧ scanPair e (0, 0) = (0, 0)) →
      splitTop (joinSep [','] es) 0 0 [] = es := by
  intro es
  induction es with
  | nil => intro hne _; cases hne rfl
  | cons e es ih =>
    intro _ h
    cases es with
    | nil => exact splitTop_single (h e (by simp)).1
    | cons e2 es2 =>
      have hj : joinSep [','] (e :: e2 :: es2) = e ++ ',' :: joinSep [','] (e2 :: es2) := by
        rw [joinSep_cons_cons]
        simp
      rw [hj, splitTop_cut (h e (by simp)).1 (h e (by simp)).2,
        ih (by simp) (fun x hx => h x (by simp [hx]))]

theorem mem_joinSep {c : Char} {sep : List Char} :
    ∀ {ps : List (List Char)}, c ∈ joinSep sep ps → c ∈ sep ∨ ∃ p ∈ ps, c ∈ p := by
  intro ps
  induction ps with
  | nil =>
    intro h
    simp [joinSep] at h
  | cons p ps ih =>
    intro h
    cases ps with
    | nil =>
      simp only [joinSep] at h
      exact Or.inr ⟨p, by simp, h⟩
    | cons p2 ps2 =>
      rw [joinSep_cons_cons] at h
      rcases List.mem_append.mp h with h1 | h2
      · rcases List.mem_append.mp h1 with hp | hs
        · exact Or.inr ⟨p, by simp, hp⟩
        · exact Or.inl hs
      · rcases ih h2 with hs | ⟨q, hq, hc⟩
        · exact Or.inl hs
        · exact Or.inr ⟨q, by simp [hq], hc⟩

theorem joinSep_ne_nil {sep : List Char} :
    ∀ {ps : List (List Char)}, ps ≠ [] → (∀ p ∈ ps, p ≠ []) → joinSep sep ps ≠ [] := by
  intro ps
  cases ps with
  | nil => intro h _; cases h rfl
  | cons p ps =>
    intro _ h
    cases ps with
    | nil => exact h p (by simp)
    | cons p2 ps2 =>
      rw [joinSep_cons_cons]
      intro hcontra
      rcases List.append_eq_nil.mp hcontra with ⟨h1, -⟩
      rcases List.append_eq_nil.mp h1 with ⟨h2, -⟩
      exact h p (by simp) h2

/-! ## C3: characters of rendered integers -/

theorem digitChr_mem (n : Nat) :
    digitChr n ∈ ['0', '1', '2', '3', '4', '5', '6', '7', '8', '9'] := by
  unfold digitChr
  split <;> simp

theorem natDigitsRev_chars :
    ∀ (fuel n : Nat), ∀ c ∈ natDigitsRev fuel n,
      c ∈ ['0', '1', '2', '3', '4', '5', '6', '7', '8', '9'] := by
  intro fuel
  induction fuel with
  | zero =>
    intro n c hc
    simp [natDigitsRev] at hc
  | succ fuel ih =>
    intro n c hc
    simp only [natDigitsRev] at hc
    by_cases h : n < 10
    · rw [if_pos h] at hc
      rcases List.mem_singleton.mp hc with rfl
      exact digitChr_mem n
    · rw [if_neg h] at hc
      rcases List.mem_cons.mp hc with rfl | hc
      · exact digitChr_mem (n % 10)
      · exact ih (n / 10) c hc

theorem natRepr_chars (n : Nat) :
    ∀ c ∈ natRepr n, c ∈ ['0', '1', '2', '3', '4', '5', '6', '7', '8', '9'] := by
  intro c hc
  rw [natRepr, List.mem_reverse] at hc
  exact natDigitsRev_chars _ _ c hc

theorem intRepr_chars (i : Int) :
    ∀ c ∈ intRepr i, c ∈ '-' :: ['0', '1', '2', '3', '4', '5', '6', '7', '8', '9'] := by
  intro c hc
  unfold intRepr at hc
  by_cases h : i < 0
  · rw [if_pos h] at hc
    rcases List.mem_cons.mp hc with rfl | hc
    · simp
    · exact List.mem_cons_of_mem _ (natRepr_chars _ c hc)
  · rw [if_neg h] at hc
    exact List.mem_cons_of_mem _ (natRepr_chars _ c hc)

/-! ## C3: `stoi?` inverts the integer rendering -/

theorem charVal_digitChr {n : Nat} (h : n < 10) : charVal (digitChr n) = n := by
  interval_cases n <;> decide

theorem digitsToNat_append (ds : List Char) (c : Char) :
    digitsToNat (ds ++ [c]) = digitsToNat ds * 10 + charVal c := by
  simp [digitsToNat, List.foldl_append]

theorem digitsToNat_natDigitsRev :
    ∀ (fuel n : Nat), n < fuel → digitsToNat (natDigitsRev fuel n).reverse = n := by
  intro fuel
  induction fuel with
  | zero =>
    intro n h
    omega
  | succ fuel ih =>
    intro n h
    simp only [natDigitsRev]
    by_cases h10 : n < 10
    · rw [if_pos h10]
      simp only [List.reverse_singleton, digitsToNat, List.foldl_cons, List.foldl_nil]
      rw [charVal_digitChr h10]
      omega
    · rw [if_neg h10]
      have hdiv : n / 10 < n := Nat.div_lt_self (by omega) (by omega)
      rw [List.reverse_cons, digitsToNat_append, ih (n / 10) (by omega),
        charVal_digitChr (Nat.mod_lt n (by omega))]
      omega

theorem digitsToNat_natRepr (n : Nat) : digitsToNat (natRepr n) = n :=
  digitsToNat_natDigitsRev (n + 1) n (by omega)

theorem natDigitsRev_ne_nil (fuel n : Nat) (h : 0 < fuel) : natDigitsRev fuel n ≠ [] := by
  cases fuel with
  | zero => omega
  | succ fuel =>
    simp only [natDigitsRev]
    by_cases h10 : n < 10
    · rw [if_pos h10]
      simp
    · rw [if_neg h10]
      simp

theorem natRepr_ne_nil (n : Nat) : natRepr n ≠ [] := by
  rw [natRepr]
  intro h
  exact natDigitsRev_ne_nil (n + 1) n (by omega) (by simpa using h)

theorem mem_digits_isDigit :
    ∀ c ∈ (['0', '1', '2', '3', '4', '5', '6', '7', '8', '9'] : List Char),
      isDigitChar c = true := by
  decide

theorem natRepr_all_digits (n : Nat) : ∀ c ∈ natRepr n, isDigitChar c = true := by
  intro c hc
  exact mem_digits_isDigit c (natRepr_chars n c hc)

theorem mem_digits_notSpace :
    ∀ c ∈ ('-' :: ['0', '1', '2', '3', '4', '5', '6', '7', '8', '9'] : List Char),
      cppIsSpace c = false := by
  decide

theorem mem_digits_notSign :
    ∀ c ∈ (['0', '1', '2', '3', '4', '5', '6', '7', '8', '9'] : List Char),
      c ≠ '-' ∧ c ≠ '+' := by
  decide

theorem stoi?_natRepr (n : Nat) : stoi? (natRepr n) = some (n : Int) := by
  obtain ⟨c, rest, hc⟩ : ∃ c rest, natRepr n = c :: rest := by
    cases h : natRepr n with
    | nil => exact absurd h (natRepr_ne_nil n)
    | cons c rest => exact ⟨c, rest, rfl⟩
  have hcmem := natRepr_chars n c (by rw [hc]; simp)
  have hcs : cppIsSpace c = false := mem_digits_notSpace c (List.mem_cons_of_mem _ hcmem)
  have hcm : c ≠ '-' ∧ c ≠ '+' := mem_digits_notSign c hcmem
  have hdrop : (natRepr n).dropWhile cppIsSpace = natRepr n := by
    rw [hc, List.dropWhile_cons, if_neg (by simp [hcs])]
  have htake : (natRepr n).takeWhile isDigitChar = natRepr n :=
    List.takeWhile_eq_self_iff.mpr (natRepr_all_digits n)
  have hhead : (natRepr n).head? = some c := by
    rw [hc]
    rfl
  have hneg : ¬((natRepr n).head? = some '-' ∨ (natRepr n).head? = some '+') := by
    rw [hhead]
    push_neg
    constructor <;> (intro h; injection h with h)
    · exact hcm.1 h
    · exact hcm.2 h
  simp only [stoi?]
  rw [hdrop, if_neg hneg, htake,
    if_neg (by rw [hc]; simp),
    if_neg (fun h => hneg (Or.inl h)),
    digitsToNat_natRepr]

theorem stoi?_intRepr (r : Int) : stoi? (intRepr r) = some r := by
  by_cases h : r < 0
  · unfold intRepr
    rw [if_pos h]
    have hdrop : ('-' :: natRepr r.natAbs).dropWhile cppIsSpace = '-' :: natRepr r.natAbs := by
      rw [List.dropWhile_cons, if_neg (by decide)]
    have htake : (natRepr r.natAbs).takeWhile isDigitChar = natRepr r.natAbs :=
      List.takeWhile_eq_self_iff.mpr (natRepr_all_digits _)
    have hhead : ('-' :: natRepr r.natAbs : List Char).head? = some '-' := rfl
    simp only [stoi?]
    rw [hdrop]
    rw [if_pos (Or.inl hhead)]
    show (if ((natRepr r.natAbs).takeWhile isDigitChar).isEmpty = true then none
      else if ('-' :: natRepr r.natAbs : List Char).head? = some '-' then
        some (-(digitsToNat ((natRepr r.natAbs).takeWhile isDigitChar) : Int))
      else some (digitsToNat ((natRepr r.natAbs).takeWhile isDigitChar) : Int)) = some r
    rw [htake]
    rw [if_neg (by simpa [List.isEmpty_iff] using natRepr_ne_nil r.natAbs), if_pos hhead,
      digitsToNat_natRepr]
    congr 1
    omega
  · unfold intRepr
    rw [if_neg h]
    rw [stoi?_natRepr]
    congr 1
    omega

/-! ## C3: segment shape lemmas -/

theorem splitAtColon?_append {a : List Char} (h : ∀ c ∈ a, c ≠ ':') (b : List Char) :
    splitAtColon? (a ++ ':' :: b) = some (a, b) := by
  induction a with
  | nil => simp [splitAtColon?]
  | cons c a ih =>
    simp only [List.cons_append, splitAtColon?, List.append_eq, if_neg (h c (by simp)),
      ih (fun x hx => h x (by simp [hx]))]

theorem stripQuotes_quoted (cs : List Char) : stripQuotes ('"' :: cs ++ ['"']) = cs := by
  have hlast : ('"' :: cs ++ ['"'] : List Char).getLast? = some '"' := by
    rw [show ('"' :: cs ++ ['"'] : List Char) = ('"' :: cs) ++ ['"'] from by simp,
      List.getLast?_concat]
  unfold stripQuotes
  rw [if_pos ⟨by simp, rfl, hlast⟩]
  simp [List.dropLast_concat]

theorem stripBrackets?_bracketed (cs : List Char) :
    stripBrackets? ('[' :: cs ++ [']']) = some cs := by
  have hlast : ('[' :: cs ++ [']'] : List Char).getLast? = some ']' := by
    rw [show ('[' :: cs ++ [']'] : List Char) = ('[' :: cs) ++ [']'] from by simp,
      List.getLast?_concat]
  unfold stripBrackets?
  rw [if_pos ⟨by simp, rfl, hlast⟩]
  simp [List.dropLast_concat]

theorem trimWs_quoted (mid : List Char) :
    trimWs ('"' :: mid ++ ['"']) = '"' :: mid ++ ['"'] := by
  unfold trimWs
  simp only [List.cons_append]
  rw [List.dropWhile_cons, if_neg (by decide)]
  rw [show ('"' :: (mid ++ ['"']) : List Char).reverse = '"' :: ('"' :: mid).reverse from by simp]
  rw [List.dropWhile_cons, if_neg (by decide)]
  simp

theorem splitComma_nil_eq (acc : List Char) : splitComma [] acc = [acc.reverse] := rfl

theorem splitComma_nosep {a : List Char} (h : ∀ c ∈ a, c ≠ ',') :
    ∀ (rest acc : List Char), splitComma (a ++ rest) acc = splitComma rest (a.reverse ++ acc) := by
  induction a with
  | nil =>
    intro rest acc
    simp
  | cons c a ih =>
    intro rest acc
    simp only [List.cons_append, splitComma, if_neg (h c (by simp)), List.append_eq]
    rw [ih (fun x hx => h x (by simp [hx]))]
    simp [List.append_assoc]

theorem splitComma_joinSep :
    ∀ ps : List (List Char), ps ≠ [] → (∀ p ∈ ps, ∀ c ∈ p, c ≠ ',') →
      splitComma (joinSep [','] ps) [] = ps := by
  intro ps
  induction ps with
  | nil =>
    intro h _
    cases h rfl
  | cons p ps ih =>
    intro _ h
    cases ps with
    | nil =>
      show splitComma p [] = [p]
      have hx := splitComma_nosep (h p (by simp)) [] []
      rw [List.append_nil] at hx
      rw [hx, splitComma_nil_eq]
      simp
    | cons p2 ps2 =>
      have hj : joinSep [','] (p :: p2 :: ps2) = p ++ ',' :: joinSep [','] (p2 :: ps2) := by
        rw [joinSep_cons_cons]
        simp
      rw [hj, splitComma_nosep (h p (by simp)) _ []]
      show splitComma (',' :: joinSep [','] (p2 :: ps2)) (p.reverse ++ []) = p :: p2 :: ps2
      rw [splitComma, if_pos rfl]
      rw [ih (by simp) (fun x hx => h x (by simp [hx]))]
      simp

theorem getLast?_ne_of_all {ps : List (List Char)} (h : ∀ p ∈ ps, p ≠ []) :
    ps.getLast? ≠ some [] := by
  induction ps with
  | nil => simp
  | cons p ps ih =>
    cases ps with
    | nil => simpa using h p (by simp)
    | cons q qs =>
      rw [List.getLast?_cons_cons]
      exact ih (fun x hx => h x (by simp [hx]))

theorem getlineSplit_joinSep (ps : List (List Char)) (hne : ps ≠ [])
    (hc : ∀ p ∈ ps, ∀ c ∈ p, c ≠ ',') (hp : ∀ p ∈ ps, p ≠ []) :
    getlineSplit (joinSep [','] ps) = ps := by
  unfold getlineSplit
  rw [if_neg (by simpa [List.isEmpty_iff] using joinSep_ne_nil hne hp)]
  rw [splitComma_joinSep ps hne hc]
  rw [if_neg (getLast?_ne_of_all hp)]

/-! ## C3: clean characters survive escaping and decoding -/

theorem escRuleSpec_clean {c : Char} (h : ¬specialChar c) : escRuleSpec c = [c] := by
  simp only [specialChar, List.mem_cons, List.not_mem_nil, or_false, not_or] at h
  obtain ⟨h1, h2, h3, h4, h5, -⟩ := h
  simp only [escRuleSpec, if_neg h1, if_neg h2, if_neg h3, if_neg h4, if_neg h5]

theorem flatten_escRule_clean {cs : List Char} (h : ∀ c ∈ cs, ¬specialChar c) :
    (cs.map escRuleSpec).flatten = cs := by
  induction cs with
  | nil => rfl
  | cons c cs ih =>
    simp only [List.map_cons, List.flatten_cons, escRuleSpec_clean (h c (by simp)),
      ih (fun x hx => h x (by simp [hx]))]
    rfl

theorem entrySpec_clean {ds : List String} (h : ∀ d ∈ ds, ∀ c ∈ d.data, ¬specialChar c)
    (r : Int) :
    entrySpec (r, ds) = '"' :: intRepr r ++ '"' :: ':' :: '[' ::
      (joinSep [','] (ds.map (fun d => '"' :: d.data ++ ['"'])) ++ [']']) := by
  unfold entrySpec
  have hmap : ds.map (fun d => '"' :: (d.data.map escRuleSpec).flatten ++ ['"'])
      = ds.map (fun d => '"' :: d.data ++ ['"']) := by
    apply List.map_congr_left
    intro d hd
    rw [flatten_escRule_clean (h d hd)]
  rw [hmap]

theorem clean_ne_comma {c : Char} (h : ¬specialChar c) : c ≠ ',' := by
  intro hc
  subst hc
  exact h (by decide)

theorem clean_flat {c : Char} (h : ¬specialChar c) :
    c ≠ '\x7b' ∧ c ≠ '\x7d' ∧ c ≠ '[' ∧ c ≠ ']' := by
  refine ⟨?_, ?_, ?_, ?_⟩ <;> (intro hc; subst hc; exact h (by decide))

theorem decodeDates_clean (ds : List String) (h : ∀ d ∈ ds, ∀ c ∈ d.data, ¬specialChar c) :
    decodeDates (joinSep [','] (ds.map (fun d => '"' :: d.data ++ ['"']))) = ds := by
  cases ds with
  | nil => rfl
  | cons d0 rest =>
    unfold decodeDates
    rw [getlineSplit_joinSep _ (by simp) ?hcomma ?hnonempty]
    case hcomma =>
      intro p hpmem c hcmem
      obtain ⟨d, hd, rfl⟩ := List.mem_map.mp hpmem
      rcases List.mem_cons.mp hcmem with rfl | hcm
      · decide
      · rcases List.mem_append.mp hcm with hcd | hcq
        · exact clean_ne_comma (h d hd c hcd)
        · rcases List.mem_singleton.mp hcq with rfl
          decide
    case hnonempty =>
      intro p hpmem
      obtain ⟨d, hd, rfl⟩ := List.mem_map.mp hpmem
      simp
    rw [List.map_map]
    have hid : ∀ d ∈ (d0 :: rest : List String),
        ((fun p => String.mk (stripQuotes (trimWs p))) ∘ fun d : String => '"' :: d.data ++ ['"'])
          d = id d := by
      intro d _
      show String.mk (stripQuotes (trimWs ('"' :: d.data ++ ['"']))) = d
      rw [trimWs_quoted, stripQuotes_quoted]
    rw [List.map_congr_left hid, List.map_id]

/-! ## C3: store building during decode -/

theorem setDates_append_last {s : Store} {r : Int} (h : ∀ p ∈ s, p.1 < r) (ds : List String) :
    setDates s r ds = s ++ [(r, ds)] := by
  induction s with
  | nil => rfl
  | cons p rest ih =>
    obtain ⟨k, v⟩ := p
    have hk : k < r := h (k, v) (by simp)
    simp only [setDates]
    rw [if_neg (by omega), if_neg (by omega), ih (fun q hq => h q (by simp [hq]))]
    simp

theorem getDates_eq_nil {s : Store} {r : Int} (h : r ∉ s.map Prod.fst) : getDates s r = [] := by
  simp [getDates, lookup_eq_none h]

/-! ## C3: processing one encoded entry -/

theorem keyChars_ok :
    ∀ c ∈ ('"' :: ':' :: '-' :: ['0', '1', '2', '3', '4', '5', '6', '7', '8', '9'] : List Char),
      c ≠ ',' ∧ c ≠ '\x7b' ∧ c ≠ '\x7d' ∧ c ≠ '[' ∧ c ≠ ']' := by
  decide

theorem keyChars_ne_colon :
    ∀ c ∈ ('"' :: '-' :: ['0', '1', '2', '3', '4', '5', '6', '7', '8', '9'] : List Char),
      c ≠ ':' := by
  decide

theorem entry_decomp (r : Int) (inner : List Char) :
    ('"' :: intRepr r ++ '"' :: ':' :: '[' :: (inner ++ [']']) : List Char)
      = ('"' :: intRepr r ++ ['"']) ++ ':' :: ('[' :: inner ++ [']']) := by
  simp

theorem key_no_colon (r : Int) : ∀ c ∈ ('"' :: intRepr r ++ ['"'] : List Char), c ≠ ':' := by
  intro c hc
  rcases List.mem_append.mp hc with h1 | h2
  · rcases List.mem_cons.mp h1 with rfl | hi
    · decide
    · exact keyChars_ne_colon c (List.mem_cons_of_mem _ (intRepr_chars r c hi))
  · rcases List.mem_singleton.mp h2 with rfl
    decide

theorem procMid_entry (t : Store) (r : Int) (ds : List String)
    (hclean : ∀ d ∈ ds, ∀ c ∈ d.data, ¬specialChar c)
    (hsorted : List.Sorted dle ds)
    (hfresh : ∀ p ∈ t, p.1 < r) :
    procMid t (entrySpec (r, ds)) = some (t ++ [(r, ds)]) := by
  have hnot : r ∉ t.map Prod.fst := by
    intro hmem
    obtain ⟨p, hp, hpr⟩ := List.mem_map.mp hmem
    exact absurd hpr (ne_of_lt (hfresh p hp))
  rw [entrySpec_clean hclean r, entry_decomp]
  simp only [procMid, splitAtColon?_append (key_no_colon r), stripQuotes_quoted,
    stoi?_intRepr, stripBrackets?_bracketed, decodeDates_clean ds hclean]
  unfold insertDatesSorted
  rw [getDates_eq_nil hnot, List.nil_append, sortDates_eq_of_sorted hsorted,
    setDates_append_last hfresh]

theorem procLast_entry (t : Store) (r : Int) (ds : List String)
    (hclean : ∀ d ∈ ds, ∀ c ∈ d.data, ¬specialChar c)
    (hsorted : List.Sorted dle ds)
    (hfresh : ∀ p ∈ t, p.1 < r) :
    procLast t (entrySpec (r, ds)) = some (t ++ [(r, ds)]) := by
  have hnot : r ∉ t.map Prod.fst := by
    intro hmem
    obtain ⟨p, hp, hpr⟩ := List.mem_map.mp hmem
    exact absurd hpr (ne_of_lt (hfresh p hp))
  rw [entrySpec_clean hclean r, entry_decomp]
  simp only [procLast, splitAtColon?_append (key_no_colon r), stripQuotes_quoted,
    stoi?_intRepr, stripBrackets?_bracketed, Option.getD_some, decodeDates_clean ds hclean]
  unfold insertDatesSorted
  rw [getDates_eq_nil hnot, List.nil_append, sortDates_eq_of_sorted hsorted,
    setDates_append_last hfresh]

theorem inner_flat {ds : List String} (hclean : ∀ d ∈ ds, ∀ c ∈ d.data, ¬specialChar c) :
    ∀ c ∈ joinSep [','] (ds.map (fun d => '"' :: d.data ++ ['"'])),
      c ≠ '\x7b' ∧ c ≠ '\x7d' ∧ c ≠ '[' ∧ c ≠ ']' := by
  intro c hc
  rcases mem_joinSep hc with hs | ⟨p, hp, hcp⟩
  · rcases List.mem_singleton.mp hs with rfl
    decide
  · obtain ⟨d, hd, rfl⟩ := List.mem_map.mp hp
    rcases List.mem_cons.mp hcp with rfl | hcm
    · decide
    · rcases List.mem_append.mp hcm with hcd | hcq
      · exact clean_flat (hclean d hd c hcd)
      · rcases List.mem_singleton.mp hcq with rfl
        decide

theorem entry_scan (r : Int) {ds : List String}
    (hclean : ∀ d ∈ ds, ∀ c ∈ d.data, ¬specialChar c) :
    noSplit (entrySpec (r, ds)) 0 0 ∧ scanPair (entrySpec (r, ds)) (0, 0) = (0, 0) := by
  rw [entrySpec_clean hclean r]
  have hshape : ('"' :: intRepr r ++ '"' :: ':' :: '[' ::
      (joinSep [','] (ds.map (fun d => '"' :: d.data ++ ['"'])) ++ [']']) : List Char)
      = ('"' :: intRepr r ++ ['"', ':'])
        ++ ('[' :: (joinSep [','] (ds.map (fun d => '"' :: d.data ++ ['"'])) ++ [']'])) := by
    simp
  rw [hshape]
  have hAflat : ∀ c ∈ ('"' :: intRepr r ++ ['"', ':'] : List Char),
      c ≠ '\x7b' ∧ c ≠ '\x7d' ∧ c ≠ '[' ∧ c ≠ ']' := by
    intro c hc
    rcases List.mem_append.mp hc with h1 | h2
    · rcases List.mem_cons.mp h1 with rfl | hi
      · decide
      · exact (keyChars_ok c (List.mem_cons_of_mem _
          (List.mem_cons_of_mem _ (intRepr_chars r c hi)))).2
    · have hqc : ∀ c ∈ (['"', ':'] : List Char),
          c ≠ '\x7b' ∧ c ≠ '\x7d' ∧ c ≠ '[' ∧ c ≠ ']' := by decide
      exact hqc c h2
  have hAcomma : ∀ c ∈ ('"' :: intRepr r ++ ['"', ':'] : List Char), c ≠ ',' := by
    intro c hc
    rcases List.mem_append.mp hc with h1 | h2
    · rcases List.mem_cons.mp h1 with rfl | hi
      · decide
      · exact (keyChars_ok c (List.mem_cons_of_mem _
          (List.mem_cons_of_mem _ (intRepr_chars r c hi)))).1
    · have hqc : ∀ c ∈ (['"', ':'] : List Char), c ≠ ',' := by decide
      exact hqc c h2
  have hinner := inner_flat hclean
  have hscanA : scanPair ('"' :: intRepr r ++ ['"', ':'] : List Char) (0, 0) = (0, 0) :=
    scanPair_flat hAflat (0, 0)
  have hscanInner : ∀ p : Int × Int,
      scanPair (joinSep [','] (ds.map (fun d => '"' :: d.data ++ ['"']))) p = p :=
    scanPair_flat hinner
  have hscanB : scanPair ('[' ::
      (joinSep [','] (ds.map (fun d => '"' :: d.data ++ ['"'])) ++ [']'])) (0, 0) = (0, 0) := by
    show scanPair (joinSep [','] (ds.map (fun d => '"' :: d.data ++ ['"'])) ++ [']'])
      (updB '[' 0, updK '[' 0) = (0, 0)
    rw [show (updB '[' 0, updK '[' 0) = ((0 : Int), (1 : Int)) from by decide]
    rw [scanPair_append, hscanInner]
    decide
  have hnoB : noSplit ('[' ::
      (joinSep [','] (ds.map (fun d => '"' :: d.data ++ ['"'])) ++ [']'])) 0 0 := by
    refine ⟨by decide, ?_⟩
    show noSplit (joinSep [','] (ds.map (fun d => '"' :: d.data ++ ['"'])) ++ [']'])
      (updB '[' 0) (updK '[' 0)
    rw [show updB '[' (0 : Int) = (0 : Int) from by decide,
      show updK '[' (0 : Int) = (1 : Int) from by decide]
    refine noSplit_append (noSplit_nonzero hinner (by omega)) ?_
    rw [hscanInner]
    exact noSplit_flat_noComma (by decide) _ _
  constructor
  · refine noSplit_append (noSplit_flat_noComma hAcomma _ _) ?_
    rw [hscanA]
    exact hnoB
  · rw [scanPair_append, hscanA, hscanB]

/-! ## C3: running the decoder over all encoded entries -/

theorem runSegs_entries :
    ∀ (entries : List (Int × List String)) (t : Store),
      (∀ p ∈ entries, (∀ d ∈ p.2, ∀ c ∈ d.data, ¬specialChar c) ∧ List.Sorted dle p.2) →
      keysOrdered (t ++ entries) →
      runSegs t (entries.map entrySpec) = some (t ++ entries) := by
  intro entries
  induction entries with
  | nil =>
    intro t _ _
    simp [runSegs]
  | cons e rest ih =>
    intro t hwf hkeys
    obtain ⟨r, ds⟩ := e
    have hfresh : ∀ p ∈ t, p.1 < r := by
      rw [keysOrdered, List.map_append, List.pairwise_append] at hkeys
      intro p hp
      exact hkeys.2.2 p.1 (List.mem_map_of_mem _ hp) r (by simp)
    cases rest with
    | nil =>
      show procLast t (entrySpec (r, ds)) = some (t ++ [(r, ds)])
      exact procLast_entry t r ds (hwf (r, ds) (by simp)).1 (hwf (r, ds) (by simp)).2 hfresh
    | cons e2 rest2 =>
      show (match procMid t (entrySpec (r, ds)) with
        | none => none
        | some s2 => runSegs s2 (entrySpec e2 :: (rest2.map entrySpec)))
          = some (t ++ (r, ds) :: e2 :: rest2)
      rw [procMid_entry t r ds (hwf (r, ds) (by simp)).1 (hwf (r, ds) (by simp)).2 hfresh]
      have hx := ih (t ++ [(r, ds)]) (fun p hp => hwf p (by simp [hp])) (by
        rw [show (t ++ [(r, ds)]) ++ e2 :: rest2 = t ++ (r, ds) :: e2 :: rest2 from by simp]
        exact hkeys)
      rw [show (t ++ [(r, ds)]) ++ e2 :: rest2 = t ++ (r, ds) :: e2 :: rest2 from by simp] at hx
      exact hx

theorem loadData_saveData (s : Store) (hwf : StoreWF s) (hclean : cleanStore s) :
    loadData (saveData s) = (LoadResult.ok, s) := by
  cases s with
  | nil => decide
  | cons e0 srest =>
    have hdata : (saveData (e0 :: srest)).data = saveSpec (e0 :: srest) :=
      saveData_data_spec _
    have hJ : saveSpec (e0 :: srest)
        = '\x7b' :: (joinSep [','] ((e0 :: srest).map entrySpec) ++ ['\x7d']) := rfl
    have hlast : (saveSpec (e0 :: srest)).getLast? = some '\x7d' := by
      rw [hJ, show ('\x7b' :: (joinSep [','] ((e0 :: srest).map entrySpec) ++ ['\x7d']) : List Char)
        = ('\x7b' :: joinSep [','] ((e0 :: srest).map entrySpec)) ++ ['\x7d'] from by simp,
        List.getLast?_concat]
    have hsplit : splitTop (joinSep [','] ((e0 :: srest).map entrySpec)) 0 0 []
        = (e0 :: srest).map entrySpec := by
      apply splitTop_joinSep _ (by simp)
      intro e he
      obtain ⟨p, hp, rfl⟩ := List.mem_map.mp he
      obtain ⟨r, ds⟩ := p
      exact entry_scan r (hclean (r, ds) hp)
    have hrun : runSegs [] ((e0 :: srest).map entrySpec) = some (e0 :: srest) := by
      have hx := runSegs_entries (e0 :: srest) []
        (fun p hp => ⟨hclean p hp, (hwf.2 p hp).1⟩) (by simpa using hwf.1)
      simpa using hx
    simp only [loadData]
    rw [hdata, hJ]
    rw [if_neg (by simp)]
    rw [if_neg (not_not_intro ⟨by simp, rfl, by rw [← hJ]; exact hlast⟩)]
    have hinner : (('\x7b' :: (joinSep [','] ((e0 :: srest).map entrySpec) ++ ['\x7d'])
        : List Char).drop 1).dropLast = joinSep [','] ((e0 :: srest).map entrySpec) := by
      simp [List.dropLast_concat]
    rw [hinner, hsplit, hrun]

/-- C3 counterexample: the store mapping id 1 to the single date `","` is
valid (its DateSet is sorted and duplicate-free), yet decoding its encoding
yields a store whose DateSet for id 1 is two copies of `"` — the comma date is
split apart, so the decoded store is not semantically equivalent to the
original. -/
theorem C3_roundtrip_counterexample :
    StoreWF [((1 : Int), [","])] ∧
    loadData (saveData [((1 : Int), [","])]) = (LoadResult.ok, [(1, ["\"", "\""])]) ∧
    ¬("," ∈ getDates (loadData (saveData [((1 : Int), [","])])).2 1 ↔
      "," ∈ getDates [((1 : Int), [","])] 1) :=
  ⟨by decide, by decide, by decide⟩

/-- C3 amended: for every valid store whose date strings avoid the
serialization's special characters (`"`, `\`, newline, carriage return, tab —
the five escaped characters, which decode never unescapes — and the comma,
bracket and brace characters, which drive the decoder's splitting), decoding
the encoding succeeds and yields a semantically equivalent store: the same
ids and, for each id, the same date strings. -/
theorem C3_roundtrip (s : Store) (hwf : StoreWF s) (hclean : cleanStore s) :
    (loadData (saveData s)).1 = LoadResult.ok ∧
    (∀ r : Int, (lookup (loadData (saveData s)).2 r).isSome = (lookup s r).isSome) ∧
    (∀ (r : Int) (d : String),
      d ∈ getDates (loadData (saveData s)).2 r ↔ d ∈ getDates s r) := by
  rw [loadData_saveData s hwf hclean]
  exact ⟨rfl, fun _ => rfl, fun _ _ => Iff.rfl⟩

/-- Witness for C3's amended round trip at a concrete two-student store. -/
theorem C3_roundtrip_witness :
    StoreWF [((101 : Int), ["2025-07-01", "2025-07-02"]), (102, ["2025-07-01"])] ∧
    cleanStore [((101 : Int), ["2025-07-01", "2025-07-02"]), (102, ["2025-07-01"])] ∧
    ((loadData (saveData [((101 : Int), ["2025-07-01", "2025-07-02"]),
        (102, ["2025-07-01"])])).1 = LoadResult.ok ∧
     (∀ r : Int, (lookup (loadData (saveData [((101 : Int), ["2025-07-01", "2025-07-02"]),
        (102, ["2025-07-01"])])).2 r).isSome
       = (lookup [((101 : Int), ["2025-07-01", "2025-07-02"]), (102, ["2025-07-01"])] r).isSome) ∧
     (∀ (r : Int) (d : String),
       d ∈ getDates (loadData (saveData [((101 : Int), ["2025-07-01", "2025-07-02"]),
         (102, ["2025-07-01"])])).2 r
         ↔ d ∈ getDates [((101 : Int), ["2025-07-01", "2025-07-02"]),
             (102, ["2025-07-01"])] r)) :=
  ⟨by decide, by decide, C3_roundtrip _ (by decide) (by decide)⟩

end AttSys
